import Mathlib

/-!
# Verification of the iiko stock-transaction ETL (`etl_iiko_stock_tx_daily.py`)

A shallow embedding of the parts of the ETL that the specification's claims
are about:

* the row-shaping loop of `fetch_stock_tx` (raw OLAP report rows →
  transaction records);
* `aggregate_rows` (collapsing records that share an aggregation key,
  summing the turnover measure);
* `pick_turnover_column` and `upsert_stock_tx` (the dual-key
  insert-or-update into the `stock_tx_iiko` ledger, including the
  `execute_values` paging at 500 rows per statement and PostgreSQL's
  "ON CONFLICT DO UPDATE command cannot affect row a second time" rule);
* `refresh_anchor_discrepancies` (the full truncate-and-rebuild of the
  two discrepancy tables, with its per-statement commit/rollback
  structure made explicit).

Python `float` turnover values are modelled as exact rationals (`Rat`);
the spec's data model declares the turnover measure to be a decimal.
Dates travel through the pipeline as ISO strings and are modelled as
strings.  Database timestamps produced by `now()` are modelled by a
`Nat` parameter passed to each run.
-/

set_option autoImplicit false

/-! ## Generic list helpers -/

/-- Fuel-driven worker for `chunksOf` (structural recursion on the fuel,
which starts at the list's length, so that the definition evaluates
inside the kernel). -/
def chunksOfAux {α : Type} (n : Nat) : Nat → List α → List (List α)
  | _, [] => []
  | 0, a :: l' => [a :: l']
  | fuel + 1, a :: l' =>
      if n = 0 then [a :: l']
      else (a :: l').take n :: chunksOfAux n fuel ((a :: l').drop n)

/-- Split `l` into chunks of at most `n` elements (the paging done by
`psycopg2.extras.execute_values` with `page_size = 500`). -/
def chunksOf {α : Type} (n : Nat) (l : List α) : List (List α) :=
  chunksOfAux n l.length l

/-- Boolean test that all elements of a list are pairwise distinct. -/
def allDistinct {α : Type} [DecidableEq α] : List α → Bool
  | [] => true
  | a :: l => !l.contains a && allDistinct l

/-! ## Transaction records

`TxRow` is one shaped report row (the spec's *TransactionRecord*): the
dictionary built for each OLAP row in `fetch_stock_tx`. -/

structure TxRow where
  department : Option String
  oper_day : Option String
  product_num : Option String
  product_name : Option String
  product_type : Option String
  measure_unit : Option String
  document : Option String
  transaction_type : Option String
  turnover : Rat
deriving Repr, DecidableEq

/-- One raw OLAP report row (`r` in the `for r in data.get("data", [])`
loop of `fetch_stock_tx`), with each dotted field read by `r.get(...)`;
a missing key yields `none`. -/
structure RawRecord where
  dateTyped : Option String
  department : Option String
  productNum : Option String
  productName : Option String
  productType : Option String
  measureUnit : Option String
  document : Option String
  transactionType : Option String
  amountStoreInOut : Option Rat
deriving Repr, DecidableEq

/-- The row-shaping loop of `fetch_stock_tx` (the HTTP transport around it
is an external collaborator per the spec).  `oper_day` truncates the
timestamp string to its first 10 characters; `turnover` is
`float(r.get("Amount.StoreInOutTyped") or 0)`.  Every raw row produces
exactly one record: there is no filtering in the loop. -/
def fetch_stock_tx (data : List RawRecord) : List TxRow :=
  data.map fun r =>
    { department := r.department
      oper_day := r.dateTyped.map fun s => s.take 10
      product_num := r.productNum
      product_name := r.productName
      product_type := r.productType
      measure_unit := r.measureUnit
      document := r.document
      transaction_type := r.transactionType
      turnover := r.amountStoreInOut.getD 0 }

/-! ## Aggregation (`aggregate_rows`)

The Python key is
`tuple(r.get(k) for k in key_fields)` with
`key_fields = [department, oper_day, product_num, product_name,
product_type, measure_unit] (++ [document] if with_document) ++
[transaction_type]` — every field except `turnover`. -/

/-- The aggregation key of `aggregate_rows` for one record. -/
def rowKey (with_document : Bool) (r : TxRow) : List (Option String) :=
  [r.department, r.oper_day, r.product_num, r.product_name, r.product_type, r.measure_unit]
    ++ (if with_document then [r.document] else []) ++ [r.transaction_type]

/-- One step of the dict accumulation in `aggregate_rows`: if a row with
the same key was already seen, add this record's turnover into its running
total (`agg[key]["turnover"] = float(agg[key].get("turnover") or 0) +
float(r.get("turnover") or 0)`; `x or 0` is the numeric identity);
otherwise append a copy of the record (`agg[key] = dict(r)` — a Python
dict preserves insertion order, so `list(agg.values())` lists first
occurrences in order). -/
def aggInsert (with_document : Bool) : List TxRow → TxRow → List TxRow
  | [], r => [r]
  | a :: acc, r =>
      if rowKey with_document a = rowKey with_document r then
        { a with turnover := a.turnover + r.turnover } :: acc
      else
        a :: aggInsert with_document acc r

/-- `aggregate_rows` from the source: fold every record into the
key-indexed accumulator. -/
def aggregate_rows (rows : List TxRow) (with_document : Bool) : List TxRow :=
  rows.foldl (aggInsert with_document) []

/-- Sum of the turnover of all records of `l` whose aggregation key is `k`. -/
def keySum (with_document : Bool) (k : List (Option String)) (l : List TxRow) : Rat :=
  ((l.filter fun x => rowKey with_document x = k).map (·.turnover)).sum

/-- The aggregation key does not look at the turnover field. -/
theorem rowKey_set_turnover (wd : Bool) (a : TxRow) (q : Rat) :
    rowKey wd { a with turnover := q } = rowKey wd a := rfl

theorem keySum_append_single (wd : Bool) (k : List (Option String)) (l : List TxRow) (r : TxRow) :
    keySum wd k (l ++ [r])
      = keySum wd k l + (if rowKey wd r = k then r.turnover else 0) := by
  simp only [keySum, List.filter_append, List.map_append, List.sum_append]
  by_cases h : rowKey wd r = k <;> simp [h]

/-- If the incoming record's key is absent from the accumulator,
`aggInsert` appends the record. -/
theorem aggInsert_key_not_mem (wd : Bool) (acc : List TxRow) (r : TxRow)
    (h : rowKey wd r ∉ acc.map (rowKey wd)) :
    aggInsert wd acc r = acc ++ [r] := by
  induction acc with
  | nil => rfl
  | cons a acc ih =>
    simp only [List.map_cons, List.mem_cons, not_or] at h
    simp only [aggInsert]
    rw [if_neg (fun hk => h.1 hk.symm), ih h.2]
    simp

/-- If the incoming record's key occurs in the accumulator, `aggInsert`
adds the turnover into the first row carrying that key. -/
theorem aggInsert_key_mem (wd : Bool) (acc : List TxRow) (r : TxRow)
    (h : rowKey wd r ∈ acc.map (rowKey wd)) :
    ∃ acc₁ a acc₂, acc = acc₁ ++ a :: acc₂ ∧ rowKey wd a = rowKey wd r
      ∧ (∀ b ∈ acc₁, rowKey wd b ≠ rowKey wd r)
      ∧ aggInsert wd acc r
          = acc₁ ++ { a with turnover := a.turnover + r.turnover } :: acc₂ := by
  induction acc with
  | nil => simp at h
  | cons a acc ih =>
    by_cases hk : rowKey wd a = rowKey wd r
    · exact ⟨[], a, acc, by simp, hk, by simp, by simp [aggInsert, hk]⟩
    · have h' : rowKey wd r ∈ acc.map (rowKey wd) := by
        simp only [List.map_cons, List.mem_cons] at h
        rcases h with h | h
        · exact absurd h.symm hk
        · exact h
      obtain ⟨acc₁, b, acc₂, heq, hbk, hfirst, hres⟩ := ih h'
      refine ⟨a :: acc₁, b, acc₂, by simp [heq], hbk, ?_, ?_⟩
      · intro c hc
        rcases List.mem_cons.mp hc with rfl | hc
        · exact hk
        · exact hfirst c hc
      · simp [aggInsert, hk, hres]

/-- The inductive invariant of the `aggregate_rows` fold: keys in the
accumulator are distinct, every accumulator row's key occurs among the
processed records, its turnover is the sum over processed records sharing
its key, and every processed record's key is represented. -/
def AggInv (wd : Bool) (processed acc : List TxRow) : Prop :=
  ((acc.map (rowKey wd)).Nodup)
  ∧ (∀ a ∈ acc, ∃ x ∈ processed, rowKey wd x = rowKey wd a)
  ∧ (∀ a ∈ acc, a.turnover = keySum wd (rowKey wd a) processed)
  ∧ (∀ x ∈ processed, ∃ a ∈ acc, rowKey wd a = rowKey wd x)

theorem aggInsert_preserves (wd : Bool) (processed acc : List TxRow) (r : TxRow)
    (h : AggInv wd processed acc) :
    AggInv wd (processed ++ [r]) (aggInsert wd acc r) := by
  obtain ⟨hK, hM1, hM2, hC⟩ := h
  by_cases hmem : rowKey wd r ∈ acc.map (rowKey wd)
  · obtain ⟨acc₁, a, acc₂, heq, hak, hfirst, hres⟩ := aggInsert_key_mem wd acc r hmem
    subst heq
    rw [hres]
    have hKsplit := hK
    simp only [List.map_append, List.map_cons, List.nodup_append, List.nodup_cons,
      List.mem_cons, List.mem_append, List.mem_map, not_or] at hKsplit
    have hanotin : ∀ b, (b ∈ acc₁ ∨ b ∈ acc₂) → rowKey wd b ≠ rowKey wd r := by
      intro b hb hc
      rcases hb with hb | hb
      · exact hfirst b hb hc
      · rcases hKsplit with ⟨-, ⟨hno2, -⟩, -⟩
        exact hno2 ⟨b, hb, hc.trans hak.symm⟩
    refine ⟨?_, ?_, ?_, ?_⟩
    · simpa only [List.map_append, List.map_cons, rowKey_set_turnover] using hK
    · intro b hb
      simp only [List.mem_append, List.mem_cons] at hb
      rcases hb with hb | rfl | hb
      · obtain ⟨x, hx, hxk⟩ := hM1 b (by simp [hb])
        exact ⟨x, by simp [hx], hxk⟩
      · obtain ⟨x, hx, hxk⟩ := hM1 a (by simp)
        exact ⟨x, by simp [hx], by simpa using hxk⟩
      · obtain ⟨x, hx, hxk⟩ := hM1 b (by simp [hb])
        exact ⟨x, by simp [hx], hxk⟩
    · intro b hb
      simp only [List.mem_append, List.mem_cons] at hb
      rcases hb with hb | rfl | hb
      · rw [keySum_append_single, if_neg, add_zero]
        · exact hM2 b (by simp [hb])
        · exact fun hc => hanotin b (Or.inl hb) hc.symm
      · rw [rowKey_set_turnover, keySum_append_single, if_pos (by simpa using hak.symm)]
        rw [hM2 a (by simp)]
      · rw [keySum_append_single, if_neg, add_zero]
        · exact hM2 b (by simp [hb])
        · exact fun hc => hanotin b (Or.inr hb) hc.symm
    · intro x hx
      rcases List.mem_append.mp hx with hx | hx
      · obtain ⟨b, hb, hbk⟩ := hC x hx
        simp only [List.mem_append, List.mem_cons] at hb
        rcases hb with hb | rfl | hb
        · exact ⟨b, by simp [hb], hbk⟩
        · exact ⟨{ b with turnover := b.turnover + r.turnover }, by simp,
            by simpa using hbk⟩
        · exact ⟨b, by simp [hb], hbk⟩
      · have hxr : x = r := by simpa using hx
        rw [hxr]
        exact ⟨{ a with turnover := a.turnover + r.turnover }, by simp,
          by simpa using hak⟩
  · rw [aggInsert_key_not_mem wd acc r hmem]
    have hnor : ∀ x ∈ processed, rowKey wd x ≠ rowKey wd r := by
      intro x hx hc
      obtain ⟨a, ha, hak⟩ := hC x hx
      exact hmem (List.mem_map.mpr ⟨a, ha, hak.trans hc⟩)
    refine ⟨?_, ?_, ?_, ?_⟩
    · simp only [List.map_append, List.map_cons, List.map_nil]
      rw [List.nodup_append]
      exact ⟨hK, List.nodup_singleton _, by
        intro k hk
        simp only [List.mem_singleton]
        intro hc
        exact hmem (hc ▸ hk)⟩
    · intro b hb
      rcases List.mem_append.mp hb with hb | hb
      · obtain ⟨x, hx, hxk⟩ := hM1 b hb
        exact ⟨x, by simp [hx], hxk⟩
      · have hbr : b = r := by simpa using hb
        rw [hbr]
        exact ⟨r, by simp, rfl⟩
    · intro b hb
      rcases List.mem_append.mp hb with hb | hb
      · rw [keySum_append_single, if_neg, add_zero]
        · exact hM2 b hb
        · intro hc
          exact hmem (hc ▸ List.mem_map.mpr ⟨b, hb, rfl⟩)
      · have hbr : b = r := by simpa using hb
        rw [hbr, keySum_append_single, if_pos rfl]
        have hzero : keySum wd (rowKey wd r) processed = 0 := by
          simp only [keySum]
          have hfil : processed.filter (fun x => rowKey wd x = rowKey wd r) = [] := by
            apply List.filter_eq_nil_iff.mpr
            intro x hx
            simpa using hnor x hx
          rw [hfil]
          simp
        rw [hzero, zero_add]
    · intro x hx
      rcases List.mem_append.mp hx with hx | hx
      · obtain ⟨a, ha, hak⟩ := hC x hx
        exact ⟨a, by simp [ha], hak⟩
      · have hxr : x = r := by simpa using hx
        rw [hxr]
        exact ⟨r, by simp, rfl⟩

theorem aggregate_rows_inv (wd : Bool) (rows : List TxRow) :
    AggInv wd rows (aggregate_rows rows wd) := by
  suffices h : ∀ (l processed acc : List TxRow), AggInv wd processed acc →
      AggInv wd (processed ++ l) (l.foldl (aggInsert wd) acc) by
    have := h rows [] [] ⟨by simp, by simp, by simp, by simp⟩
    simpa [aggregate_rows] using this
  intro l
  induction l with
  | nil => intro processed acc h; simpa using h
  | cons r rest ih =>
    intro processed acc h
    have step := aggInsert_preserves wd processed acc r h
    have := ih (processed ++ [r]) (aggInsert wd acc r) step
    simpa using this

/-- With `with_document = true` the aggregation key lists every field of
the record except the turnover, so key plus turnover determine the row. -/
theorem rowKey_true_inj (r r' : TxRow) (hk : rowKey true r = rowKey true r')
    (ht : r.turnover = r'.turnover) : r = r' := by
  cases r
  cases r'
  simp only [rowKey, if_pos, List.cons_append, List.nil_append, List.cons.injEq,
    List.nil_eq] at hk
  simp_all

/-- Membership characterization of `aggregate_rows` under the
document-aware key: a row is in the output iff its key occurs in the
input and its turnover is the sum over input records with that key. -/
theorem mem_aggregate_rows_iff (rows : List TxRow) (r : TxRow) :
    r ∈ aggregate_rows rows true
      ↔ (∃ x ∈ rows, rowKey true x = rowKey true r)
        ∧ r.turnover = keySum true (rowKey true r) rows := by
  obtain ⟨hK, hM1, hM2, hC⟩ := aggregate_rows_inv true rows
  constructor
  · intro hr
    exact ⟨hM1 r hr, hM2 r hr⟩
  · rintro ⟨⟨x, hx, hxk⟩, ht⟩
    obtain ⟨a, ha, hak⟩ := hC x hx
    have hkey : rowKey true a = rowKey true r := hak.trans hxk
    have hturn : a.turnover = r.turnover := by
      rw [hM2 a ha, hkey, ht]
    exact (rowKey_true_inj a r hkey hturn) ▸ ha

/-! ## The ledger (`stock_tx_iiko`) and the dual-key upsert -/

/-- One persisted ledger row.  `updated_at` is the `now()` timestamp,
modelled as a `Nat` supplied per run. -/
structure LedgerRow where
  department : Option String
  oper_day : Option String
  product_num : Option String
  product_name : Option String
  product_type : Option String
  measure_unit : Option String
  document : Option String
  transaction_type : Option String
  turnover : Rat
  updated_at : Nat
deriving Repr, DecidableEq

/-- Forget the update timestamp (the spec's "identical up to the update
timestamp"). -/
def eraseTs (lr : LedgerRow) : LedgerRow := { lr with updated_at := 0 }

/-- The two conflict-key families of the upsert: `doc` is the
`ON CONFLICT (department, product_num, document, transaction_type) WHERE
document IS NOT NULL` statement; `day` is the
`ON CONFLICT (department, oper_day, product_num, document,
transaction_type)` statement used for rows whose document is absent. -/
inductive Fam where
  | doc
  | day
deriving Repr, DecidableEq

/-- Whether a value row `v` conflicts with ledger row `lr`.

For `doc` this is equality on (department, product_num, document,
transaction_type) together with the partial-index condition
`document IS NOT NULL`.

Modelled from the spec: the unique index behind the day-scoped
`ON CONFLICT` is not in the repository (no DDL ships with the code); the
spec states the day-scoped conflict key as `(department, operating_day,
product_code, document_ref=NULL, transaction_kind)`, i.e. an inserted
NULL document matches an existing NULL-document row, which is what
`lr.document = v.document` gives for the all-`none` documents the `day`
batch carries. -/
def famMatch : Fam → TxRow → LedgerRow → Bool
  | .doc, v, lr =>
      lr.department == v.department && lr.product_num == v.product_num
        && lr.document == v.document && lr.transaction_type == v.transaction_type
        && !(lr.document == none)
  | .day, v, lr =>
      lr.department == v.department && lr.oper_day == v.oper_day
        && lr.product_num == v.product_num && lr.document == v.document
        && lr.transaction_type == v.transaction_type

/-- The `DO UPDATE SET` clause of each statement: the doc-scoped update
overwrites `oper_day` (a document can move to another operating day); the
day-scoped update leaves `oper_day` alone (it is part of the key).  Both
overwrite the descriptive fields, the turnover column and `updated_at`. -/
def famUpdate : Fam → Nat → TxRow → LedgerRow → LedgerRow
  | .doc, t, v, lr =>
      { lr with
        oper_day := v.oper_day
        product_name := v.product_name
        product_type := v.product_type
        measure_unit := v.measure_unit
        turnover := v.turnover
        updated_at := t }
  | .day, t, v, lr =>
      { lr with
        product_name := v.product_name
        product_type := v.product_type
        measure_unit := v.measure_unit
        turnover := v.turnover
        updated_at := t }

/-- A fresh ledger row inserted for value `v` (all insert columns plus
`now()`). -/
def insertRow (t : Nat) (v : TxRow) : LedgerRow :=
  { department := v.department
    oper_day := v.oper_day
    product_num := v.product_num
    product_name := v.product_name
    product_type := v.product_type
    measure_unit := v.measure_unit
    document := v.document
    transaction_type := v.transaction_type
    turnover := v.turnover
    updated_at := t }

/-- Insert-or-update of a single value row: update the first conflicting
ledger row, else append a fresh row at the end of the relation. -/
def upsertList (fam : Fam) (t : Nat) : List LedgerRow → TxRow → List LedgerRow
  | [], v => [insertRow t v]
  | lr :: led, v =>
      if famMatch fam v lr then famUpdate fam t v lr :: led
      else lr :: upsertList fam t led v

/-- The conflict-key tuple of a value row under each family, used for
PostgreSQL's in-statement duplicate detection. -/
def conflictKey : Fam → TxRow → List (Option String)
  | .doc, v => [v.department, v.product_num, v.document, v.transaction_type]
  | .day, v => [v.department, v.oper_day, v.product_num, v.document, v.transaction_type]

/-- `psycopg2.extras.execute_values(cur, sql, values, page_size=500)`
against an `INSERT ... ON CONFLICT ... DO UPDATE` statement: values are
sent in pages of 500; within one statement, two value rows that hit the
same conflict target make PostgreSQL abort with "ON CONFLICT DO UPDATE
command cannot affect row a second time" (nothing of the whole call is
committed then, so the error result carries no ledger state); otherwise
each value row updates-or-inserts in sequence. -/
def execute_values (fam : Fam) (t : Nat) (ledger : List LedgerRow)
    (vals : List TxRow) : Except String (List LedgerRow) :=
  (chunksOf 500 vals).foldlM
    (fun led chunk =>
      if allDistinct (chunk.map (conflictKey fam)) then
        Except.ok (chunk.foldl (upsertList fam t) led)
      else
        Except.error "ON CONFLICT DO UPDATE command cannot affect row a second time")
    ledger

/-- `pick_turnover_column`: first candidate column present in the ledger
schema, `RuntimeError` if none is. -/
def pick_turnover_column (cols : List String) : Except String String :=
  match ["turnover", "store_in_out", "amount_store_in_out", "amount"].find?
      (fun cand => cols.contains cand) with
  | some c => Except.ok c
  | none => Except.error "Не нашёл колонку под оборот. Ожидал одну из: turnover / store_in_out / amount_store_in_out / amount"

/-- The with-document batch of the Upserter:
`rows_with_doc = [r for r in rows if r.get("document") not in (None, "")]`
after aggregation. -/
def rows_with_doc (rows : List TxRow) : List TxRow :=
  (aggregate_rows rows true).filter fun r => !(r.document == none || r.document == some "")

/-- The no-document batch: its values carry an explicit NULL document
(the source builds the tuple with `None` in the document slot). -/
def rows_no_doc (rows : List TxRow) : List TxRow :=
  ((aggregate_rows rows true).filter fun r => r.document == none || r.document == some "").map
    fun r => { r with document := none }

/-- The two `execute_values` calls of the Upserter in sequence (each one
skipped when its batch is empty, as in the source).  In the source each
batch is committed separately; an error in a batch aborts the run with
nothing of that batch committed, which is what the `Except.error` result
stands for. -/
def upsert_batches (t : Nat) (ledger : List LedgerRow) (rows : List TxRow) :
    Except String (List LedgerRow) :=
  match (if (rows_with_doc rows).isEmpty then Except.ok ledger
         else execute_values Fam.doc t ledger (rows_with_doc rows)) with
  | Except.error e => Except.error e
  | Except.ok led1 =>
      if (rows_no_doc rows).isEmpty then Except.ok led1
      else execute_values Fam.day t led1 (rows_no_doc rows)

/-- `upsert_stock_tx(conn, rows)`.  The connection is modelled by the
ledger schema `cols` (what `get_table_columns` would report for
`stock_tx_iiko`), the current ledger contents, and the run timestamp `t`.

Mirrors the source: the empty-input early return happens before any
schema introspection; `pick_turnover_column` runs before the
`document`-column check; aggregation always runs `with_document=True`;
the returned count is the number of value rows written. -/
def upsert_stock_tx (cols : List String) (t : Nat) (ledger : List LedgerRow)
    (rows : List TxRow) : Except String (Nat × List LedgerRow) :=
  if rows.isEmpty then Except.ok (0, ledger)
  else
    match pick_turnover_column cols with
    | Except.error e => Except.error e
    | Except.ok _tcol =>
      if !cols.contains "document" then
        Except.error "В stock_tx_iiko нет колонки document — текущая стратегия уникальности невозможна"
      else
        match upsert_batches t ledger rows with
        | Except.error e => Except.error e
        | Except.ok led2 =>
          Except.ok ((rows_with_doc rows).length + (rows_no_doc rows).length, led2)

/-! ## Replay (idempotence) theory for the dual-key upsert -/

/-- The validity condition the two batches of `upsert_stock_tx` establish:
doc-family values carry a non-null document (they passed the
`not in (None, "")` filter); day-family values carry an explicit null
document. -/
def GoodVal : Fam × TxRow → Prop
  | (Fam.doc, v) => v.document ≠ none
  | (Fam.day, v) => v.document = none

/-- Two ledger rows that conflict with exactly the same good value rows. -/
def MatchEquivG (r r' : LedgerRow) : Prop :=
  ∀ (fam : Fam) (v : TxRow), GoodVal (fam, v) → famMatch fam v r = famMatch fam v r'

theorem matchEquivG_refl (r : LedgerRow) : MatchEquivG r r := fun _ _ _ => rfl

theorem matchEquivG_symm {r r' : LedgerRow} (h : MatchEquivG r r') : MatchEquivG r' r :=
  fun fam v hv => (h fam v hv).symm

theorem matchEquivG_trans {r r' r'' : LedgerRow}
    (h : MatchEquivG r r') (h' : MatchEquivG r' r'') : MatchEquivG r r'' :=
  fun fam v hv => (h fam v hv).trans (h' fam v hv)

theorem famMatch_doc_iff (v : TxRow) (lr : LedgerRow) :
    famMatch Fam.doc v lr = true
      ↔ lr.department = v.department ∧ lr.product_num = v.product_num
        ∧ lr.document = v.document ∧ lr.transaction_type = v.transaction_type
        ∧ lr.document ≠ none := by
  simp [famMatch, and_assoc]

theorem famMatch_day_iff (v : TxRow) (lr : LedgerRow) :
    famMatch Fam.day v lr = true
      ↔ lr.department = v.department ∧ lr.oper_day = v.oper_day
        ∧ lr.product_num = v.product_num ∧ lr.document = v.document
        ∧ lr.transaction_type = v.transaction_type := by
  simp [famMatch, and_assoc]

/-- A matched `DO UPDATE SET` writes the same row an insert of the value
would: the key fields it keeps from the old row are pinned to the value's
fields by the conflict condition. -/
theorem famUpdate_of_match (fam : Fam) (t : Nat) (v : TxRow) (lr : LedgerRow)
    (h : famMatch fam v lr = true) : famUpdate fam t v lr = insertRow t v := by
  cases fam
  · obtain ⟨h1, h2, h3, h4, -⟩ := (famMatch_doc_iff v lr).mp h
    simp [famUpdate, insertRow, h1, h2, h3, h4]
  · obtain ⟨h1, h2, h3, h4, h5⟩ := (famMatch_day_iff v lr).mp h
    simp [famUpdate, insertRow, h1, h2, h3, h4, h5]

/-- A freshly inserted row conflicts with its own value. -/
theorem famMatch_insertRow_self (fam : Fam) (v : TxRow) (t : Nat)
    (h : GoodVal (fam, v)) : famMatch fam v (insertRow t v) = true := by
  cases fam
  · exact (famMatch_doc_iff v _).mpr ⟨rfl, rfl, rfl, rfl, h⟩
  · exact (famMatch_day_iff v _).mpr ⟨rfl, rfl, rfl, rfl, rfl⟩

/-- Overwriting a conflicting row with the value's fields does not change
which good values the row conflicts with. -/
theorem matchEquivG_insert_of_match (fam : Fam) (w : TxRow) (lr : LedgerRow) (t : Nat)
    (hm : famMatch fam w lr = true) (hg : GoodVal (fam, w)) :
    MatchEquivG (insertRow t w) lr := by
  intro fam' v hv
  cases fam
  · obtain ⟨h1, h2, h3, h4, h5⟩ := (famMatch_doc_iff w lr).mp hm
    cases fam'
    · simp [famMatch, insertRow, h1, h2, h3, h4]
    · have hvd : v.document = none := hv
      have hwd : w.document ≠ none := hg
      obtain ⟨d, hd⟩ := Option.ne_none_iff_exists'.mp hwd
      simp [famMatch, insertRow, hvd, hd, h3 ▸ hd]
  · obtain ⟨h1, h2, h3, h4, h5⟩ := (famMatch_day_iff w lr).mp hm
    have hwd : w.document = none := hg
    cases fam'
    · simp [famMatch, insertRow, hwd, h4 ▸ hwd]
    · simp [famMatch, insertRow, h1, h2, h3, h4, h5]

/-- Whether some row of the ledger conflicts with `v`. -/
def hasMatch (fam : Fam) (v : TxRow) (led : List LedgerRow) : Bool :=
  led.any (famMatch fam v)

theorem upsertList_nomatch (fam : Fam) (t : Nat) (led : List LedgerRow) (v : TxRow)
    (h : hasMatch fam v led = false) :
    upsertList fam t led v = led ++ [insertRow t v] := by
  induction led with
  | nil => rfl
  | cons lr led ih =>
    simp only [hasMatch, List.any_cons, Bool.or_eq_false_iff] at h
    simp only [upsertList]
    rw [if_neg (by simp [h.1]), ih h.2]
    simp

theorem upsertList_decomp (fam : Fam) (t : Nat) (led : List LedgerRow) (v : TxRow)
    (h : hasMatch fam v led = true) :
    ∃ l₁ c l₂, led = l₁ ++ c :: l₂ ∧ famMatch fam v c = true
      ∧ (∀ b ∈ l₁, famMatch fam v b = false)
      ∧ upsertList fam t led v = l₁ ++ insertRow t v :: l₂ := by
  induction led with
  | nil => simp [hasMatch] at h
  | cons lr led ih =>
    by_cases hm : famMatch fam v lr = true
    · exact ⟨[], lr, led, by simp, hm, by simp,
        by simp [upsertList, hm, famUpdate_of_match fam t v lr hm]⟩
    · have h' : hasMatch fam v led = true := by
        simp only [hasMatch, List.any_cons, Bool.or_eq_true] at h
        rcases h with h | h
        · exact absurd h hm
        · exact h
      obtain ⟨l₁, c, l₂, heq, hc, hfirst, hres⟩ := ih h'
      refine ⟨lr :: l₁, c, l₂, by simp [heq], hc, ?_, ?_⟩
      · intro b hb
        rcases List.mem_cons.mp hb with rfl | hb
        · exact Bool.eq_false_iff.mpr hm
        · exact hfirst b hb
      · simp [upsertList, hm, hres]

theorem upsertList_append_match (fam : Fam) (t : Nat) (P Q : List LedgerRow) (v : TxRow)
    (h : hasMatch fam v P = true) :
    upsertList fam t (P ++ Q) v = upsertList fam t P v ++ Q := by
  induction P with
  | nil => simp [hasMatch] at h
  | cons lr P ih =>
    by_cases hm : famMatch fam v lr = true
    · simp [upsertList, hm]
    · have h' : hasMatch fam v P = true := by
        simp only [hasMatch, List.any_cons, Bool.or_eq_true] at h
        rcases h with h | h
        · exact absurd h hm
        · exact h
      simp [upsertList, hm, ih h']

theorem upsertList_append_nomatch (fam : Fam) (t : Nat) (P Q : List LedgerRow) (v : TxRow)
    (h : hasMatch fam v P = false) :
    upsertList fam t (P ++ Q) v = P ++ upsertList fam t Q v := by
  induction P with
  | nil => rfl
  | cons lr P ih =>
    simp only [hasMatch, List.any_cons, Bool.or_eq_false_iff] at h
    simp only [List.cons_append, upsertList]
    rw [if_neg (by simp [h.1])]
    exact congrArg (lr :: ·) (ih h.2)

/-- Every upsert leaves a row conflicting with its value at a position
whose prefix has no conflicting row: either the updated first match or
the appended fresh row. -/
theorem upsertList_pivot (fam : Fam) (t : Nat) (led : List LedgerRow) (v : TxRow) :
    ∃ l₁ l₂, (∀ b ∈ l₁, famMatch fam v b = false)
      ∧ upsertList fam t led v = l₁ ++ insertRow t v :: l₂ := by
  cases h : hasMatch fam v led
  · exact ⟨led, [], fun b hb => by
      have := List.any_eq_false.mp h b hb
      simpa using this, by simpa using upsertList_nomatch fam t led v h⟩
  · obtain ⟨l₁, c, l₂, -, -, hfirst, hres⟩ := upsertList_decomp fam t led v h
    exact ⟨l₁, l₂, hfirst, hres⟩

/-- One tagged value applied to the ledger (`execute_values` applies its
batch value-by-value). -/
def applyVal (t : Nat) (led : List LedgerRow) (p : Fam × TxRow) : List LedgerRow :=
  upsertList p.1 t led p.2

/-- A whole sequence of tagged values applied in order. -/
def foldVals (t : Nat) (led : List LedgerRow) (vs : List (Fam × TxRow)) : List LedgerRow :=
  vs.foldl (applyVal t) led

theorem foldVals_nil (t : Nat) (led : List LedgerRow) : foldVals t led [] = led := rfl

theorem foldVals_cons (t : Nat) (led : List LedgerRow) (p : Fam × TxRow)
    (vs : List (Fam × TxRow)) :
    foldVals t led (p :: vs) = foldVals t (upsertList p.1 t led p.2) vs := rfl

theorem forall₂_matchEquivG_trans :
    ∀ {xs ys zs : List LedgerRow}, List.Forall₂ MatchEquivG xs ys
      → List.Forall₂ MatchEquivG ys zs → List.Forall₂ MatchEquivG xs zs := by
  intro xs
  induction xs with
  | nil =>
    intro ys zs h h'
    cases h
    cases h'
    exact List.Forall₂.nil
  | cons x xs ih =>
    intro ys zs h h'
    cases h with
    | cons hxy hrest =>
      cases h' with
      | cons hyz hrest' =>
        exact List.Forall₂.cons (matchEquivG_trans hxy hyz) (ih hrest hrest')

theorem matchfalse_of_forall₂ {N N' : List LedgerRow}
    (hF : List.Forall₂ MatchEquivG N N') (fam : Fam) (v : TxRow)
    (hg : GoodVal (fam, v)) (h : ∀ c ∈ N, famMatch fam v c = false) :
    ∀ c ∈ N', famMatch fam v c = false := by
  induction hF with
  | nil => intro c hc; simp at hc
  | cons hxy hrest ih =>
    intro c hc
    rcases List.mem_cons.mp hc with rfl | hc
    · rw [← hxy fam v hg]
      exact h _ (by simp)
    · exact ih (fun d hd => h d (by simp [hd])) c hc

/-- Bridge: two ledgers that differ in a single row — conflict-equivalent
rows, and either equal or about to be overwritten by a remaining value
whose first conflict sits exactly there — are sent to the same ledger by
the remaining writes. -/
theorem foldVals_one_diff (t : Nat) :
    ∀ (vs : List (Fam × TxRow)) (P S : List LedgerRow) (b r' : LedgerRow),
    (∀ p ∈ vs, GoodVal p) →
    MatchEquivG r' b →
    (r' = b ∨ ∃ p ∈ vs, famMatch p.1 p.2 r' = true ∧ ∀ c ∈ P, famMatch p.1 p.2 c = false) →
    foldVals t (P ++ r' :: S) vs = foldVals t (P ++ b :: S) vs := by
  intro vs
  induction vs with
  | nil =>
    intro P S b r' hGood hEquiv hCov
    rcases hCov with rfl | ⟨p, hp, -⟩
    · rfl
    · simp at hp
  | cons q rest ih =>
    intro P S b r' hGood hEquiv hCov
    obtain ⟨fam, w⟩ := q
    have hwGood : GoodVal (fam, w) := hGood _ (by simp)
    have hrestGood : ∀ p ∈ rest, GoodVal p := fun p hp => hGood p (by simp [hp])
    rcases hCov with rfl | hCov
    · rfl
    rw [foldVals_cons, foldVals_cons]
    cases hP : hasMatch fam w P
    · -- no conflict inside the shared prefix
      rw [upsertList_append_nomatch fam t P _ w hP, upsertList_append_nomatch fam t P _ w hP]
      have hwb : famMatch fam w r' = famMatch fam w b := hEquiv fam w hwGood
      cases hr : famMatch fam w r'
      · -- the write passes over the discrepant row on both sides
        have hb' : famMatch fam w b = false := hwb ▸ hr
        rw [show upsertList fam t (r' :: S) w = r' :: upsertList fam t S w from by
              simp [upsertList, hr],
          show upsertList fam t (b :: S) w = b :: upsertList fam t S w from by
              simp [upsertList, hb']]
        apply ih P _ b r' hrestGood hEquiv
        right
        obtain ⟨p, hp, hpr, hpc⟩ := hCov
        rcases List.mem_cons.mp hp with rfl | hp
        · rw [hpr] at hr; cases hr
        · exact ⟨p, hp, hpr, hpc⟩
      · -- the write lands exactly on the discrepant row: repaired
        have hb' : famMatch fam w b = true := hwb ▸ hr
        rw [show upsertList fam t (r' :: S) w = famUpdate fam t w r' :: S from by
              simp [upsertList, hr],
          show upsertList fam t (b :: S) w = famUpdate fam t w b :: S from by
              simp [upsertList, hb'],
          famUpdate_of_match fam t w r' hr, famUpdate_of_match fam t w b hb']
    · -- the write updates the first conflict inside the shared prefix
      obtain ⟨l₁, c, l₂, hPeq, hc, hfirst, hres⟩ := upsertList_decomp fam t P w hP
      rw [upsertList_append_match fam t P _ w hP, upsertList_append_match fam t P _ w hP,
        hres]
      have hIns : MatchEquivG (insertRow t w) c := matchEquivG_insert_of_match fam w c t hc hwGood
      apply ih (l₁ ++ insertRow t w :: l₂) S b r' hrestGood hEquiv
      obtain ⟨p, hp, hpr, hpc⟩ := hCov
      right
      have hpGood : GoodVal p := hGood p hp
      have hp' : p ∈ rest := by
        rcases List.mem_cons.mp hp with rfl | hp
        · exfalso
          have := hpc c (by rw [hPeq]; simp)
          rw [this] at hc
          cases hc
        · exact hp
      refine ⟨p, hp', hpr, ?_⟩
      intro d hd
      rcases List.mem_append.mp hd with hd | hd
      · exact hpc d (by rw [hPeq]; simp [hd])
      · rcases List.mem_cons.mp hd with rfl | hd
        · rw [hIns p.1 p.2 hpGood]
          exact hpc c (by rw [hPeq]; simp)
        · exact hpc d (by rw [hPeq]; simp [hd])

/-- Persistence: once a value's row sits behind a conflict-free prefix,
the remaining writes keep a row there that conflicts with the same good
values; the row is either untouched or was last overwritten by a
remaining value whose first conflict sits exactly there. -/
theorem foldVals_persist (t : Nat) (fam : Fam) (v : TxRow) (hv : GoodVal (fam, v)) :
    ∀ (vs : List (Fam × TxRow)) (N₁ : List LedgerRow) (x : LedgerRow) (N₂ : List LedgerRow),
    (∀ p ∈ vs, GoodVal p) →
    (∀ c ∈ N₁, famMatch fam v c = false) →
    MatchEquivG x (insertRow t v) →
    ∃ N₁' x' N₂', foldVals t (N₁ ++ x :: N₂) vs = N₁' ++ x' :: N₂'
      ∧ List.Forall₂ MatchEquivG N₁ N₁'
      ∧ MatchEquivG x' (insertRow t v)
      ∧ (x' = x ∨ ∃ p ∈ vs, famMatch p.1 p.2 x' = true
          ∧ ∀ c ∈ N₁', famMatch p.1 p.2 c = false) := by
  intro vs
  induction vs with
  | nil =>
    intro N₁ x N₂ hGood hN1 hx
    exact ⟨N₁, x, N₂, rfl, List.forall₂_same.mpr (fun c _ => matchEquivG_refl c), hx,
      Or.inl rfl⟩
  | cons q rest ih =>
    intro N₁ x N₂ hGood hN1 hx
    obtain ⟨fam', w⟩ := q
    have hwGood : GoodVal (fam', w) := hGood _ (by simp)
    have hrestGood : ∀ p ∈ rest, GoodVal p := fun p hp => hGood p (by simp [hp])
    rw [foldVals_cons]
    cases hP : hasMatch fam' w N₁
    · have hsplit : upsertList fam' t (N₁ ++ x :: N₂) w
          = N₁ ++ upsertList fam' t (x :: N₂) w :=
        upsertList_append_nomatch fam' t N₁ _ w hP
      cases hxw : famMatch fam' w x
      · -- the write passes over the tracked row
        have hstep : upsertList fam' t (N₁ ++ x :: N₂) w
            = N₁ ++ x :: upsertList fam' t N₂ w := by
          rw [hsplit]
          simp [upsertList, hxw]
        rw [hstep]
        obtain ⟨N₁', x', N₂', heq, hF, hx', hcov⟩ :=
          ih N₁ x (upsertList fam' t N₂ w) hrestGood hN1 hx
        refine ⟨N₁', x', N₂', heq, hF, hx', ?_⟩
        rcases hcov with hcov | ⟨p, hp, h1, h2⟩
        · exact Or.inl hcov
        · exact Or.inr ⟨p, by simp [hp], h1, h2⟩
      · -- the write overwrites the tracked row
        have hstep : upsertList fam' t (N₁ ++ x :: N₂) w
            = N₁ ++ insertRow t w :: N₂ := by
          rw [hsplit]
          simp [upsertList, hxw, famUpdate_of_match fam' t w x hxw]
        rw [hstep]
        have hxw' : MatchEquivG (insertRow t w) (insertRow t v) :=
          matchEquivG_trans (matchEquivG_insert_of_match fam' w x t hxw hwGood) hx
        obtain ⟨N₁', x', N₂', heq, hF, hx', hcov⟩ :=
          ih N₁ (insertRow t w) N₂ hrestGood hN1 hxw'
        refine ⟨N₁', x', N₂', heq, hF, hx', ?_⟩
        rcases hcov with rfl | ⟨p, hp, h1, h2⟩
        · refine Or.inr ⟨(fam', w), by simp, famMatch_insertRow_self fam' w t hwGood, ?_⟩
          exact matchfalse_of_forall₂ hF fam' w hwGood
            (fun c hc => by
              have := List.any_eq_false.mp hP c hc
              simpa using this)
        · exact Or.inr ⟨p, by simp [hp], h1, h2⟩
    · -- the write lands inside the tracked prefix
      obtain ⟨l₁, c, l₂, hN1eq, hc, hfirst, hres⟩ := upsertList_decomp fam' t N₁ w hP
      have hstep : upsertList fam' t (N₁ ++ x :: N₂) w
          = (l₁ ++ insertRow t w :: l₂) ++ x :: N₂ := by
        rw [upsertList_append_match fam' t N₁ _ w hP, hres]
      rw [hstep]
      have hIns : MatchEquivG (insertRow t w) c := matchEquivG_insert_of_match fam' w c t hc hwGood
      have hN1' : ∀ d ∈ l₁ ++ insertRow t w :: l₂, famMatch fam v d = false := by
        intro d hd
        rcases List.mem_append.mp hd with hd | hd
        · exact hN1 d (by rw [hN1eq]; simp [hd])
        · rcases List.mem_cons.mp hd with rfl | hd
          · rw [hIns fam v hv]
            exact hN1 c (by rw [hN1eq]; simp)
          · exact hN1 d (by rw [hN1eq]; simp [hd])
      obtain ⟨N₁', x', N₂', heq, hF, hx', hcov⟩ :=
        ih (l₁ ++ insertRow t w :: l₂) x N₂ hrestGood hN1' hx
      have hFcomp : List.Forall₂ MatchEquivG N₁ N₁' := by
        apply forall₂_matchEquivG_trans _ hF
        rw [hN1eq]
        exact List.rel_append
          (List.forall₂_same.mpr (fun d _ => matchEquivG_refl d))
          (List.Forall₂.cons (matchEquivG_symm hIns)
            (List.forall₂_same.mpr (fun d _ => matchEquivG_refl d)))
      refine ⟨N₁', x', N₂', heq, hFcomp, hx', ?_⟩
      rcases hcov with hcov | ⟨p, hp, h1, h2⟩
      · exact Or.inl hcov
      · exact Or.inr ⟨p, by simp [hp], h1, h2⟩

/-- Exact replay idempotence of the tagged-value fold: applying the very
same value sequence a second time (same timestamp) does not change the
ledger. -/
theorem foldVals_idem (t : Nat) :
    ∀ (vs : List (Fam × TxRow)), (∀ p ∈ vs, GoodVal p) →
    ∀ (L : List LedgerRow), foldVals t (foldVals t L vs) vs = foldVals t L vs := by
  intro vs
  induction vs with
  | nil => intro _ L; rfl
  | cons q rest ih =>
    intro hGood L
    obtain ⟨fam, v⟩ := q
    have hvGood : GoodVal (fam, v) := hGood _ (by simp)
    have hrestGood : ∀ p ∈ rest, GoodVal p := fun p hp => hGood p (by simp [hp])
    rw [foldVals_cons, foldVals_cons]
    obtain ⟨M₁, M₂, hM1, hMeq⟩ := upsertList_pivot fam t L v
    rw [hMeq]
    obtain ⟨N₁, x', N₂, heq, hF, hx', hcov⟩ :=
      foldVals_persist t fam v hvGood rest M₁ (insertRow t v) M₂ hrestGood hM1
        (matchEquivG_refl _)
    rw [heq]
    have hN1false : ∀ c ∈ N₁, famMatch fam v c = false :=
      matchfalse_of_forall₂ hF fam v hvGood hM1
    have hN1nomatch : hasMatch fam v N₁ = false := by
      apply List.any_eq_false.mpr
      intro c hc
      simp [hN1false c hc]
    have hx'match : famMatch fam v x' = true := by
      rw [hx' fam v hvGood]
      exact famMatch_insertRow_self fam v t hvGood
    have hupd : upsertList fam t (N₁ ++ x' :: N₂) v = N₁ ++ insertRow t v :: N₂ := by
      rw [upsertList_append_nomatch fam t N₁ _ v hN1nomatch]
      simp [upsertList, hx'match, famUpdate_of_match fam t v x' hx'match]
    rw [hupd]
    have hbridge : foldVals t (N₁ ++ insertRow t v :: N₂) rest
        = foldVals t (N₁ ++ x' :: N₂) rest := by
      apply foldVals_one_diff t rest N₁ N₂ x' (insertRow t v) hrestGood
        (matchEquivG_symm hx')
      rcases hcov with rfl | ⟨p, hp, h1, h2⟩
      · exact Or.inl rfl
      · refine Or.inr ⟨p, hp, ?_, h2⟩
        rw [← hx' p.1 p.2 (hrestGood p hp)]
        exact h1
    have hfold : foldVals t (N₁ ++ x' :: N₂) rest = N₁ ++ x' :: N₂ := by
      have hrepl := ih hrestGood (M₁ ++ insertRow t v :: M₂)
      rw [heq] at hrepl
      exact hrepl
    rw [hbridge, hfold]

/-! ## Timestamp erasure commutes with the upsert -/

theorem famMatch_eraseTs (fam : Fam) (v : TxRow) (lr : LedgerRow) :
    famMatch fam v (eraseTs lr) = famMatch fam v lr := by
  cases fam <;> rfl

theorem eraseTs_famUpdate (fam : Fam) (t : Nat) (v : TxRow) (lr : LedgerRow) :
    eraseTs (famUpdate fam t v lr) = famUpdate fam 0 v (eraseTs lr) := by
  cases fam <;> rfl

theorem eraseTs_insertRow (t : Nat) (v : TxRow) :
    eraseTs (insertRow t v) = insertRow 0 v := rfl

theorem map_eraseTs_upsertList (fam : Fam) (t : Nat) (led : List LedgerRow) (v : TxRow) :
    (upsertList fam t led v).map eraseTs = upsertList fam 0 (led.map eraseTs) v := by
  induction led with
  | nil => simp [upsertList, eraseTs_insertRow]
  | cons lr led ih =>
    cases hm : famMatch fam v lr
    · have hm' : famMatch fam v (eraseTs lr) = false := (famMatch_eraseTs fam v lr) ▸ hm
      simp only [upsertList, List.map_cons, hm, hm']
      simp [ih]
    · have hm' : famMatch fam v (eraseTs lr) = true := (famMatch_eraseTs fam v lr) ▸ hm
      simp only [upsertList, List.map_cons, hm, hm']
      simp [eraseTs_famUpdate]

theorem map_eraseTs_foldVals (t : Nat) (vs : List (Fam × TxRow)) :
    ∀ (led : List LedgerRow),
    (foldVals t led vs).map eraseTs = foldVals 0 (led.map eraseTs) vs := by
  induction vs with
  | nil => intro led; rfl
  | cons p vs ih =>
    intro led
    rw [foldVals_cons, foldVals_cons, ih, map_eraseTs_upsertList]

/-! ## `execute_values` success characterization -/

theorem chunksOfAux_flatten {α : Type} (n : Nat) :
    ∀ (fuel : Nat) (l : List α), l.length ≤ fuel + 1 → (chunksOfAux n fuel l).flatten = l := by
  intro fuel
  induction fuel with
  | zero =>
    intro l h
    cases l with
    | nil => rfl
    | cons a l' => simp [chunksOfAux]
  | succ fuel ih =>
    intro l h
    cases l with
    | nil => rfl
    | cons a l' =>
      rw [chunksOfAux]
      cases hn : n with
      | zero => simp
      | succ m =>
        subst hn
        rw [if_neg (by simp), List.flatten_cons, ih ((a :: l').drop (m + 1))
          (by simp only [List.length_drop, List.length_cons] at *; omega)]
        exact List.take_append_drop (m + 1) (a :: l')

/-- Splitting a list into pages and concatenating gives the list back. -/
theorem chunksOf_join {α : Type} (n : Nat) (l : List α) :
    (chunksOf n l).flatten = l := by
  rw [chunksOf]
  cases l with
  | nil => rfl
  | cons a l' =>
    exact chunksOfAux_flatten n (a :: l').length (a :: l') (by simp)

theorem foldlM_pages_ok_iff (fam : Fam) (t : Nat) :
    ∀ (cs : List (List TxRow)) (led out : List LedgerRow),
    (cs.foldlM
      (fun led chunk =>
        if allDistinct (chunk.map (conflictKey fam)) then
          Except.ok (chunk.foldl (upsertList fam t) led)
        else
          (Except.error "ON CONFLICT DO UPDATE command cannot affect row a second time"
            : Except String (List LedgerRow)))
      led = Except.ok out)
      ↔ ((∀ c ∈ cs, allDistinct (c.map (conflictKey fam)) = true)
          ∧ out = cs.flatten.foldl (upsertList fam t) led) := by
  intro cs
  induction cs with
  | nil =>
    intro led out
    constructor
    · intro h
      cases h
      exact ⟨by simp, rfl⟩
    · rintro ⟨-, rfl⟩
      rfl
  | cons c cs ih =>
    intro led out
    cases hd : allDistinct (c.map (conflictKey fam))
    · constructor
      · intro h
        exfalso
        simp only [List.foldlM_cons, hd] at h
        simp only [Bool.false_eq_true, if_false, Bind.bind, Except.bind] at h
        exact Except.noConfusion h
      · rintro ⟨hall, -⟩
        exact absurd (hall c (by simp)) (by simp [hd])
    · constructor
      · intro h
        simp only [List.foldlM_cons, hd, if_pos] at h
        have h' : (cs.foldlM
            (fun led chunk =>
              if allDistinct (chunk.map (conflictKey fam)) then
                Except.ok (chunk.foldl (upsertList fam t) led)
              else Except.error "ON CONFLICT DO UPDATE command cannot affect row a second time")
            (c.foldl (upsertList fam t) led) = Except.ok out) := h
        obtain ⟨hall, hout⟩ := (ih _ out).mp h'
        refine ⟨?_, ?_⟩
        · intro d hd'
          rcases List.mem_cons.mp hd' with rfl | hd'
          · exact hd
          · exact hall d hd'
        · rw [hout]
          simp [List.foldl_append]
      · rintro ⟨hall, rfl⟩
        simp only [List.foldlM_cons, hd, if_pos]
        have := (ih (c.foldl (upsertList fam t) led)
          ((c :: cs).flatten.foldl (upsertList fam t) led)).mpr
          ⟨fun d hd' => hall d (by simp [hd']), by simp [List.foldl_append]⟩
        exact this

/-- `execute_values` succeeds iff no page carries two values with the
same conflict key, and then the result is the value-by-value fold. -/
theorem execute_values_ok_iff (fam : Fam) (t : Nat) (led out : List LedgerRow)
    (vals : List TxRow) :
    execute_values fam t led vals = Except.ok out
      ↔ ((∀ c ∈ chunksOf 500 vals, allDistinct (c.map (conflictKey fam)) = true)
          ∧ out = vals.foldl (upsertList fam t) led) := by
  rw [execute_values, foldlM_pages_ok_iff fam t (chunksOf 500 vals) led out,
    chunksOf_join]

theorem chunksOf_nil {α : Type} (n : Nat) : chunksOf n ([] : List α) = [] := rfl

theorem execute_values_nil (fam : Fam) (t : Nat) (led : List LedgerRow) :
    execute_values fam t led [] = Except.ok led := by
  rw [execute_values, chunksOf_nil]
  rfl

theorem if_isEmpty_exec (fam : Fam) (t : Nat) (led : List LedgerRow) (b : List TxRow) :
    (if b.isEmpty then Except.ok led else execute_values fam t led b)
      = execute_values fam t led b := by
  cases b
  · simp [execute_values_nil]
  · rfl

theorem good_rows_with_doc (rows : List TxRow) :
    ∀ p ∈ (rows_with_doc rows).map (fun r => (Fam.doc, r)), GoodVal p := by
  intro p hp
  obtain ⟨r, hr, rfl⟩ := List.mem_map.mp hp
  obtain ⟨-, hcond⟩ := List.mem_filter.mp hr
  simp only [Bool.not_eq_true', Bool.or_eq_false_iff] at hcond
  show r.document ≠ none
  intro hnone
  rw [hnone] at hcond
  simp at hcond

theorem good_rows_no_doc (rows : List TxRow) :
    ∀ p ∈ (rows_no_doc rows).map (fun r => (Fam.day, r)), GoodVal p := by
  intro p hp
  obtain ⟨r, hr, rfl⟩ := List.mem_map.mp hp
  obtain ⟨s, hs, rfl⟩ := List.mem_map.mp hr
  show ({ s with document := none } : TxRow).document = none
  rfl

theorem foldl_upsertList_eq_foldVals (fam : Fam) (t : Nat) (led : List LedgerRow)
    (vals : List TxRow) :
    vals.foldl (upsertList fam t) led = foldVals t led (vals.map (fun r => (fam, r))) := by
  rw [foldVals, List.foldl_map]
  rfl

theorem foldVals_append (t : Nat) (led : List LedgerRow) (vs ws : List (Fam × TxRow)) :
    foldVals t led (vs ++ ws) = foldVals t (foldVals t led vs) ws := by
  simp [foldVals, List.foldl_append]

/-- Success inversion for the two batched statements. -/
theorem upsert_batches_ok_iff (t : Nat) (ledger out : List LedgerRow) (rows : List TxRow) :
    upsert_batches t ledger rows = Except.ok out
      ↔ ∃ led1, execute_values Fam.doc t ledger (rows_with_doc rows) = Except.ok led1
          ∧ execute_values Fam.day t led1 (rows_no_doc rows) = Except.ok out := by
  rw [upsert_batches, if_isEmpty_exec]
  cases hex1 : execute_values Fam.doc t ledger (rows_with_doc rows) with
  | error e =>
    simp only []
    constructor
    · intro h
      exact absurd h (by simp)
    · rintro ⟨led1, h1, -⟩
      exact absurd h1 (by simp)
  | ok led1 =>
    simp only [if_isEmpty_exec]
    constructor
    · intro h
      exact ⟨led1, rfl, h⟩
    · rintro ⟨led1', h1, h2⟩
      obtain rfl : led1 = led1' := by
        simpa using h1
      exact h2

/-- Success inversion for the whole Upserter on a non-empty record set
against a schema with a turnover column and the document column. -/
theorem upsert_stock_tx_ok_iff (cols : List String) (t : Nat)
    (ledger : List LedgerRow) (rows : List TxRow) (n : Nat) (out : List LedgerRow)
    (hrows : rows.isEmpty = false) (tcol : String)
    (hpick : pick_turnover_column cols = Except.ok tcol)
    (hdoc : cols.contains "document" = true) :
    upsert_stock_tx cols t ledger rows = Except.ok (n, out)
      ↔ upsert_batches t ledger rows = Except.ok out
        ∧ n = (rows_with_doc rows).length + (rows_no_doc rows).length := by
  rw [upsert_stock_tx, if_neg (by simp [hrows]), hpick]
  cases hb : upsert_batches t ledger rows with
  | error e =>
    simp only [hdoc, Bool.not_true, Bool.false_eq_true, if_false]
    constructor
    · intro h
      exact absurd h (by simp)
    · rintro ⟨h1, -⟩
      exact absurd h1 (by simp)
  | ok led2 =>
    simp only [hdoc, Bool.not_true, Bool.false_eq_true, if_false]
    constructor
    · intro h
      simp only [Except.ok.injEq, Prod.mk.injEq] at h
      exact ⟨by rw [h.2], h.1.symm⟩
    · rintro ⟨h1, rfl⟩
      obtain rfl : led2 = out := by simpa using h1
      rfl

/-- C4 core: a successful run of the Upserter followed by a second run on
the same record set succeeds, writes the same count, and leaves the
ledger identical up to the update timestamp. -/
theorem upsert_stock_tx_idem (cols : List String) (t₁ t₂ : Nat)
    (L0 L1 : List LedgerRow) (rows : List TxRow) (n : Nat)
    (h : upsert_stock_tx cols t₁ L0 rows = Except.ok (n, L1)) :
    ∃ L2, upsert_stock_tx cols t₂ L1 rows = Except.ok (n, L2)
      ∧ L2.map eraseTs = L1.map eraseTs := by
  cases hrows : rows.isEmpty with
  | true =>
    rw [upsert_stock_tx, if_pos hrows] at h
    simp only [Except.ok.injEq, Prod.mk.injEq] at h
    obtain ⟨rfl, rfl⟩ := h
    exact ⟨L0, by rw [upsert_stock_tx, if_pos hrows], rfl⟩
  | false =>
    -- peel the schema checks off the run-1 hypothesis
    have hpick : ∃ tcol, pick_turnover_column cols = Except.ok tcol := by
      cases hp : pick_turnover_column cols with
      | error e =>
        rw [upsert_stock_tx, if_neg (by simp [hrows]), hp] at h
        exact absurd h (by simp)
      | ok tcol => exact ⟨tcol, rfl⟩
    obtain ⟨tcol, hpick⟩ := hpick
    have hdoc : cols.contains "document" = true := by
      cases hd : cols.contains "document" with
      | false =>
        rw [upsert_stock_tx, if_neg (by simp [hrows]), hpick,
          if_pos (by rw [hd]; rfl)] at h
        exact absurd h (by simp)
      | true => rfl
    obtain ⟨hb, rfl⟩ :=
      (upsert_stock_tx_ok_iff cols t₁ L0 rows n L1 hrows tcol hpick hdoc).mp h
    obtain ⟨led1, hex1, hex2⟩ := (upsert_batches_ok_iff t₁ L0 L1 rows).mp hb
    obtain ⟨hchk1, hled1⟩ :=
      (execute_values_ok_iff Fam.doc t₁ L0 led1 (rows_with_doc rows)).mp hex1
    obtain ⟨hchk2, hled2⟩ :=
      (execute_values_ok_iff Fam.day t₁ led1 L1 (rows_no_doc rows)).mp hex2
    -- run 2 executes the same statements successfully
    have hex1' : execute_values Fam.doc t₂ L1 (rows_with_doc rows)
        = Except.ok ((rows_with_doc rows).foldl (upsertList Fam.doc t₂) L1) :=
      (execute_values_ok_iff Fam.doc t₂ L1 _ (rows_with_doc rows)).mpr ⟨hchk1, rfl⟩
    have hex2' : execute_values Fam.day t₂
          ((rows_with_doc rows).foldl (upsertList Fam.doc t₂) L1) (rows_no_doc rows)
        = Except.ok ((rows_no_doc rows).foldl (upsertList Fam.day t₂)
            ((rows_with_doc rows).foldl (upsertList Fam.doc t₂) L1)) :=
      (execute_values_ok_iff Fam.day t₂ _ _ (rows_no_doc rows)).mpr ⟨hchk2, rfl⟩
    have hb' : upsert_batches t₂ L1 rows
        = Except.ok ((rows_no_doc rows).foldl (upsertList Fam.day t₂)
            ((rows_with_doc rows).foldl (upsertList Fam.doc t₂) L1)) :=
      (upsert_batches_ok_iff t₂ L1 _ rows).mpr ⟨_, hex1', hex2'⟩
    refine ⟨_, (upsert_stock_tx_ok_iff cols t₂ L1 rows _ _ hrows tcol hpick hdoc).mpr
      ⟨hb', rfl⟩, ?_⟩
    -- ledgers agree up to the timestamp
    have hGood : ∀ p ∈ (rows_with_doc rows).map (fun r => (Fam.doc, r))
        ++ (rows_no_doc rows).map (fun r => (Fam.day, r)), GoodVal p := by
      intro p hp
      rcases List.mem_append.mp hp with hp | hp
      · exact good_rows_with_doc rows p hp
      · exact good_rows_no_doc rows p hp
    have hrun1 : L1 = foldVals t₁ L0
        ((rows_with_doc rows).map (fun r => (Fam.doc, r))
          ++ (rows_no_doc rows).map (fun r => (Fam.day, r))) := by
      rw [foldVals_append, hled2, hled1,
        foldl_upsertList_eq_foldVals, foldl_upsertList_eq_foldVals]
    have hrun2 : (rows_no_doc rows).foldl (upsertList Fam.day t₂)
          ((rows_with_doc rows).foldl (upsertList Fam.doc t₂) L1)
        = foldVals t₂ L1
          ((rows_with_doc rows).map (fun r => (Fam.doc, r))
            ++ (rows_no_doc rows).map (fun r => (Fam.day, r))) := by
      rw [foldVals_append, foldl_upsertList_eq_foldVals, foldl_upsertList_eq_foldVals]
    rw [hrun2, map_eraseTs_foldVals]
    conv_lhs => rw [hrun1, map_eraseTs_foldVals]
    conv_rhs => rw [hrun1, map_eraseTs_foldVals]
    exact foldVals_idem 0 _ hGood (L0.map eraseTs)

/-! ## The Reconciliation Rebuilder (`refresh_anchor_discrepancies`)

The embedding fixes the canonical discrepancy-table schema: the code's
`pick_one` tolerates alternate column names and optional columns; we take
the primary name of every required column plus `product_name`, `qty_plan`
and `diff_qty` (with both of those present the totals statement
aggregates the detail table directly, the first branch of the source).
The optional `batch_status` / `qty_opening` / `qty_closing` /
`created_at` / `updated_at` columns of the detail table are absent in
this deployment, which the code supports. -/

/-- One row of `public.batch_manual_anchor` (the spec's *AnchorFact*). -/
structure AnchorRow where
  department : String
  product_num : String
  product_name : Option String
  anchor_day : String
  production_day : String
  qty_fact : Rat
deriving Repr, DecidableEq

/-- One row of `public.batch_daily_lifecycle` (the spec's
*LifecyclePlanRow*), external and read-only here. -/
structure LifecycleRow where
  department : String
  product_num : String
  snapshot_day : String
  production_day : String
  qty_closing : Rat
deriving Repr, DecidableEq

/-- One row of `public.prep_items_ref`, joined only to backfill a null
anchor product name. -/
structure RefRow where
  product_num : String
  product_name : Option String
deriving Repr, DecidableEq

/-- One row of `public.batch_anchor_diff` (the spec's *DiffDetailRow*). -/
structure DiffRow where
  department : String
  product_num : String
  product_name : Option String
  anchor_day : String
  production_day : String
  qty_fact : Rat
  qty_plan : Rat
  diff_qty : Rat
deriving Repr, DecidableEq

/-- One row of `public.batch_anchor_diff_total` (the spec's
*DiffTotalRow*). -/
structure TotalRow where
  department : String
  product_num : String
  product_name : Option String
  anchor_day : String
  qty_fact_total : Rat
  qty_plan_total : Rat
  diff_qty_total : Rat
deriving Repr, DecidableEq

/-- `LEFT JOIN public.batch_daily_lifecycle l ON l.department =
a.department AND l.product_num = a.product_num AND l.snapshot_day =
a.anchor_day AND l.production_day = a.production_day`: each anchor row is
paired with every matching lifecycle row, or with `none` when no row
matches. -/
def leftJoinLifecycle (anchors : List AnchorRow) (lifecycle : List LifecycleRow) :
    List (AnchorRow × Option LifecycleRow) :=
  anchors.flatMap fun a =>
    let ms := lifecycle.filter fun l =>
      l.department = a.department ∧ l.product_num = a.product_num
        ∧ l.snapshot_day = a.anchor_day ∧ l.production_day = a.production_day
    if ms.isEmpty then [(a, none)] else ms.map fun l => (a, some l)

/-- `LEFT JOIN public.prep_items_ref ref ON
canon_product_num(ref.product_num) = canon_product_num(a.product_num)`;
`canon_product_num` is a database function outside the repository, passed
in as `canon`. -/
def leftJoinRef (canon : String → String) (pairs : List (AnchorRow × Option LifecycleRow))
    (ref : List RefRow) : List (AnchorRow × Option LifecycleRow × Option RefRow) :=
  pairs.flatMap fun p =>
    let ms := ref.filter fun rr => canon rr.product_num = canon p.1.product_num
    if ms.isEmpty then [(p.1, p.2, none)] else ms.map fun rr => (p.1, p.2, some rr)

/-- The detail `INSERT ... SELECT`: fact from the anchor, plan
`COALESCE(l.qty_closing, 0)`, diff `a.qty_fact - COALESCE(l.qty_closing,
0)`, name `COALESCE(a.product_name, ref.product_name)`. -/
def buildDetail (canon : String → String) (ref : List RefRow)
    (anchors : List AnchorRow) (lifecycle : List LifecycleRow) : List DiffRow :=
  (leftJoinRef canon (leftJoinLifecycle anchors lifecycle) ref).map fun j =>
    { department := j.1.department
      product_num := j.1.product_num
      product_name := match j.1.product_name with
        | some nm => some nm
        | none => j.2.2.bind (·.product_name)
      anchor_day := j.1.anchor_day
      production_day := j.1.production_day
      qty_fact := j.1.qty_fact
      qty_plan := (j.2.1.map (·.qty_closing)).getD 0
      diff_qty := j.1.qty_fact - (j.2.1.map (·.qty_closing)).getD 0 }

/-- First-occurrence deduplication (the distinct `GROUP BY` keys of the
totals statement, in order of first appearance). -/
def uniqKeys {α : Type} [DecidableEq α] : List α → List α
  | [] => []
  | a :: l => a :: uniqKeys (l.filter fun b => b ≠ a)
termination_by l => l.length
decreasing_by
  simp only [List.length_cons]
  have := List.length_filter_le (fun b => b ≠ a) l
  omega

/-- `MAX(d.product_name)` of PostgreSQL: nulls are ignored; `none` only
when every input is null. -/
def maxName (l : List (Option String)) : Option String :=
  l.foldl
    (fun acc o =>
      match acc, o with
      | none, o => o
      | some a, none => some a
      | some a, some b => some (max a b))
    none

/-- The totals `INSERT ... SELECT ... FROM public.batch_anchor_diff d
GROUP BY d.department, d.product_num, d.anchor_day` (the branch the
source takes when the detail table stores `qty_plan`/`diff_qty`). -/
def buildTotal (details : List DiffRow) : List TotalRow :=
  (uniqKeys (details.map fun d => (d.department, d.product_num, d.anchor_day))).map
    fun k =>
      let grp := details.filter fun d => (d.department, d.product_num, d.anchor_day) = k
      { department := k.1
        product_num := k.2.1
        product_name := maxName (grp.map (·.product_name))
        anchor_day := k.2.2
        qty_fact_total := (grp.map (·.qty_fact)).sum
        qty_plan_total := (grp.map (·.qty_plan)).sum
        diff_qty_total := (grp.map (·.diff_qty)).sum }

/-- The database state `refresh_anchor_discrepancies` touches: existence
flags for the four tables checked up front (`table_exists`), and the
contents of the source and derived tables. -/
structure DBState where
  manual_anchor_exists : Bool
  anchor_diff_exists : Bool
  anchor_diff_total_exists : Bool
  daily_lifecycle_exists : Bool
  anchors : List AnchorRow
  lifecycle : List LifecycleRow
  prep_items_ref : List RefRow
  diff : List DiffRow
  total : List TotalRow
deriving Repr, DecidableEq

/-- Injected database failures, one flag per SQL statement of the
rebuild, to model TransactionFailure behaviour (a flag set means the
statement raises a database error when executed). -/
structure FailPlan where
  truncate_fails : Bool
  detail_insert_fails : Bool
  total_insert_fails : Bool
deriving Repr, DecidableEq

/-- `refresh_anchor_discrepancies(conn)`.

Returns the last **committed** database state together with the
`RuntimeError` message when the run raised.  Mirrors the source's
transaction structure: the two `TRUNCATE`s commit on their own; the
detail `INSERT` commits on its own; the totals `INSERT` commits on its
own; a failing statement is rolled back (leaving every earlier commit in
place) and re-raised as `RuntimeError`.  The four `table_exists` guards
return early, successfully, without touching anything. -/
def refresh_anchor_discrepancies (canon : String → String) (fp : FailPlan)
    (s : DBState) : DBState × Option String :=
  if ¬ s.manual_anchor_exists then (s, none)
  else if ¬ s.anchor_diff_exists then (s, none)
  else if ¬ s.anchor_diff_total_exists then (s, none)
  else if ¬ s.daily_lifecycle_exists then (s, none)
  else if fp.truncate_fails then
    (s, some "Не смог TRUNCATE таблицы расхождений")
  else
    -- TRUNCATE both discrepancy tables, committed at once
    let s1 : DBState := { s with diff := [], total := [] }
    if s1.anchors.length = 0 then (s1, none)
    else if fp.detail_insert_fails then
      (s1, some "Ошибка пересчёта batch_anchor_diff")
    else
      let s2 : DBState :=
        { s1 with diff := buildDetail canon s1.prep_items_ref s1.anchors s1.lifecycle }
      if fp.total_insert_fails then
        (s2, some "Ошибка пересчёта batch_anchor_diff_total")
      else
        ({ s2 with total := buildTotal s2.diff }, none)

/-! ## Facts about the rebuild -/

theorem mem_leftJoinLifecycle (anchors : List AnchorRow) (lifecycle : List LifecycleRow)
    (p : AnchorRow × Option LifecycleRow) (hp : p ∈ leftJoinLifecycle anchors lifecycle) :
    p.1 ∈ anchors := by
  simp only [leftJoinLifecycle, List.mem_flatMap] at hp
  obtain ⟨a, ha, hmem⟩ := hp
  split at hmem
  · simp only [List.mem_singleton] at hmem
    rw [hmem]
    exact ha
  · obtain ⟨l, -, hl⟩ := List.mem_map.mp hmem
    rw [← hl]
    exact ha

theorem leftJoinLifecycle_no_match (anchors : List AnchorRow)
    (lifecycle : List LifecycleRow) (a : AnchorRow) (ha : a ∈ anchors)
    (hno : ∀ l ∈ lifecycle, ¬(l.department = a.department ∧ l.product_num = a.product_num
      ∧ l.snapshot_day = a.anchor_day ∧ l.production_day = a.production_day)) :
    (a, (none : Option LifecycleRow)) ∈ leftJoinLifecycle anchors lifecycle := by
  simp only [leftJoinLifecycle, List.mem_flatMap]
  refine ⟨a, ha, ?_⟩
  have hfil : lifecycle.filter (fun l =>
      decide (l.department = a.department ∧ l.product_num = a.product_num
        ∧ l.snapshot_day = a.anchor_day ∧ l.production_day = a.production_day)) = [] := by
    apply List.filter_eq_nil_iff.mpr
    intro l hl
    simpa using hno l hl
  rw [hfil]
  simp

theorem mem_leftJoinRef (canon : String → String)
    (pairs : List (AnchorRow × Option LifecycleRow)) (ref : List RefRow)
    (j : AnchorRow × Option LifecycleRow × Option RefRow)
    (hj : j ∈ leftJoinRef canon pairs ref) : (j.1, j.2.1) ∈ pairs := by
  simp only [leftJoinRef, List.mem_flatMap] at hj
  obtain ⟨p, hp, hmem⟩ := hj
  split at hmem
  · simp only [List.mem_singleton] at hmem
    rw [hmem]
    exact hp
  · obtain ⟨rr, -, hrr⟩ := List.mem_map.mp hmem
    rw [← hrr]
    exact hp

theorem leftJoinRef_exists (canon : String → String)
    (pairs : List (AnchorRow × Option LifecycleRow)) (ref : List RefRow)
    (p : AnchorRow × Option LifecycleRow) (hp : p ∈ pairs) :
    ∃ j ∈ leftJoinRef canon pairs ref, j.1 = p.1 ∧ j.2.1 = p.2 := by
  simp only [leftJoinRef, List.mem_flatMap]
  cases hms : (ref.filter fun rr => canon rr.product_num = canon p.1.product_num).isEmpty
  · have : ∃ rr, rr ∈ ref.filter fun rr => canon rr.product_num = canon p.1.product_num := by
      cases hl : ref.filter fun rr => canon rr.product_num = canon p.1.product_num with
      | nil => rw [hl] at hms; simp at hms
      | cons x xs => exact ⟨x, by simp [hl]⟩
    obtain ⟨rr, hrr⟩ := this
    refine ⟨(p.1, p.2, some rr), ⟨p, hp, ?_⟩, rfl, rfl⟩
    rw [hms]
    simp only [Bool.false_eq_true, if_false]
    exact List.mem_map.mpr ⟨rr, hrr, rfl⟩
  · refine ⟨(p.1, p.2, none), ⟨p, hp, ?_⟩, rfl, rfl⟩
    rw [hms]
    simp

/-- Every detail row is generated from an anchor row and carries its key
fields and fact quantity (rows come only from the anchor side of the
join). -/
theorem mem_buildDetail (canon : String → String) (ref : List RefRow)
    (anchors : List AnchorRow) (lifecycle : List LifecycleRow) (r : DiffRow)
    (hr : r ∈ buildDetail canon ref anchors lifecycle) :
    ∃ a ∈ anchors, r.department = a.department ∧ r.product_num = a.product_num
      ∧ r.anchor_day = a.anchor_day ∧ r.production_day = a.production_day
      ∧ r.qty_fact = a.qty_fact := by
  simp only [buildDetail, List.mem_map] at hr
  obtain ⟨j, hj, hmap⟩ := hr
  have ha : j.1 ∈ anchors :=
    mem_leftJoinLifecycle anchors lifecycle (j.1, j.2.1)
      (mem_leftJoinRef canon _ ref j hj)
  exact ⟨j.1, ha, by rw [← hmap], by rw [← hmap], by rw [← hmap], by rw [← hmap],
    by rw [← hmap]⟩

/-- An anchor with no matching lifecycle row yields a detail row with
plan 0 and diff equal to its fact quantity (`COALESCE(l.qty_closing, 0)`
behind a failed `LEFT JOIN`). -/
theorem buildDetail_no_match (canon : String → String) (ref : List RefRow)
    (anchors : List AnchorRow) (lifecycle : List LifecycleRow) (a : AnchorRow)
    (ha : a ∈ anchors)
    (hno : ∀ l ∈ lifecycle, ¬(l.department = a.department ∧ l.product_num = a.product_num
      ∧ l.snapshot_day = a.anchor_day ∧ l.production_day = a.production_day)) :
    ∃ r ∈ buildDetail canon ref anchors lifecycle,
      r.department = a.department ∧ r.product_num = a.product_num
        ∧ r.anchor_day = a.anchor_day ∧ r.production_day = a.production_day
        ∧ r.qty_fact = a.qty_fact ∧ r.qty_plan = 0 ∧ r.diff_qty = a.qty_fact := by
  obtain ⟨j, hj, hj1, hj2⟩ := leftJoinRef_exists canon _ ref (a, none)
    (leftJoinLifecycle_no_match anchors lifecycle a ha hno)
  simp only [buildDetail, List.mem_map]
  refine ⟨_, ⟨j, hj, rfl⟩, ?_⟩
  simp [hj1, hj2]

/-- The successful path of the rebuild with a non-empty anchor table:
the detail table afterwards holds exactly the rebuilt rows. -/
theorem refresh_diff_eq (canon : String → String) (fp : FailPlan) (s : DBState)
    (h1 : s.manual_anchor_exists = true) (h2 : s.anchor_diff_exists = true)
    (h3 : s.anchor_diff_total_exists = true) (h4 : s.daily_lifecycle_exists = true)
    (h5 : fp.truncate_fails = false) (h6 : fp.detail_insert_fails = false)
    (h7 : s.anchors ≠ []) :
    (refresh_anchor_discrepancies canon fp s).1.diff
      = buildDetail canon s.prep_items_ref s.anchors s.lifecycle := by
  have hlen : ¬ s.anchors.length = 0 := by
    simp only [List.length_eq_zero]
    exact h7
  cases htot : fp.total_insert_fails <;>
    simp [refresh_anchor_discrepancies, h1, h2, h3, h4, h5, h6, htot, hlen]

/-! ## Concrete rows used by the counterexamples and witnesses -/

/-- A document-scoped record: department `"Авиагородок"`, product `"0722"`,
document `"Акт списания №1"`, kind `"WRITEOFF"`, turnover 10. -/
def txDoc1 : TxRow :=
  ⟨some "Авиагородок", some "2024-05-01", some "0722", some "Пирог", some "PREPARED",
    some "шт", some "Акт списания №1", some "WRITEOFF", 10⟩

/-- Same document-scoped identity key as `txDoc1` but a different
operating day and turnover 5. -/
def txDoc2 : TxRow := { txDoc1 with oper_day := some "2024-05-02", turnover := 5 }

/-- Identical to `txDoc1` in every non-turnover field; turnover 3. -/
def txDoc3 : TxRow := { txDoc1 with turnover := 3 }

/-- Same document-scoped identity key as `txDoc1` but a different product
name ("later record" of claim C6) and turnover 5. -/
def txName2 : TxRow := { txDoc1 with product_name := some "Пирог новый", turnover := 5 }

/-- A raw report row in which every field, department and date included,
is missing. -/
def rawNull : RawRecord := ⟨none, none, none, none, none, none, none, none, none⟩

/-- The record `fetch_stock_tx` builds from `rawNull`. -/
def txNull : TxRow := ⟨none, none, none, none, none, none, none, none, 0⟩

/-- The ledger after upserting `txDoc1` into an empty ledger at time 3. -/
def ledgerC4 : List LedgerRow := [insertRow 3 txDoc1]

/-! ## Claim C10 -/

/-- Claim C10 (confirmed): with an empty input row list the Upserter
returns 0 and leaves the ledger untouched for **every** schema `cols` —
including one lacking the document column and every turnover-column
candidate — because the early return precedes all schema introspection,
so no SchemaMismatch can be raised. -/
theorem C10_empty_input_theorem (cols : List String) (t : Nat) (led : List LedgerRow) :
    upsert_stock_tx cols t led [] = Except.ok (0, led) := rfl

/-! ## Claim C8 -/

/-- Claim C8 (corrected), counterexample: a raw report record with no
resolvable department or operating day is **not** dropped by
`fetch_stock_tx`: it yields one TransactionRecord with null fields and
turnover 0.  The claim's asserted drop-and-count behaviour does not
exist in the code (no filter, no counter in the loop). -/
theorem C8_counterexample :
    fetch_stock_tx [rawNull] = [txNull]
      ∧ txNull.department = none ∧ txNull.oper_day = none := ⟨rfl, rfl, rfl⟩

/-- Claim C8 (amended): a raw record with no resolvable department or
operating day is kept (with null fields), not dropped: the run's record
set always has exactly one record per raw report row, and the run does
not fail on such records. -/
theorem C8_amended_theorem (data : List RawRecord) :
    (fetch_stock_tx data).length = data.length := by
  simp [fetch_stock_tx]

/-! ## Claim C7 -/

/-- Claim C7 (corrected), counterexample: with a ledger schema that has a
turnover column but no `document` column and a non-empty record set, the
run does **not** proceed with the day-scoped identity-key family — it
raises `RuntimeError` and writes nothing. -/
theorem C7_counterexample :
    upsert_stock_tx ["turnover"] 0 [] [txDoc1]
      = Except.error "В stock_tx_iiko нет колонки document — текущая стратегия уникальности невозможна" := by
  rfl

/-- Claim C7 (amended): if the ledger table has no `document` column (but
a turnover candidate resolves), the Upserter refuses to run: every
non-empty record set makes it fail with the fixed `RuntimeError` message
before any write.  The day-scoped family is chosen only per record (for
records with a null/empty document) when the document column exists. -/
theorem C7_amended_theorem (cols : List String) (t : Nat) (led : List LedgerRow)
    (rows : List TxRow) (tcol : String) (hrows : rows.isEmpty = false)
    (hpick : pick_turnover_column cols = Except.ok tcol)
    (hdoc : cols.contains "document" = false) :
    upsert_stock_tx cols t led rows
      = Except.error "В stock_tx_iiko нет колонки document — текущая стратегия уникальности невозможна" := by
  rw [upsert_stock_tx, if_neg (by simp [hrows]), hpick, if_pos (by rw [hdoc]; rfl)]

/-- Witness for C7: the amended theorem applied to the schema
`["amount"]` (turnover resolves to the `amount` candidate) and one
record. -/
theorem C7_witness :
    upsert_stock_tx ["amount"] 5 [] [txDoc2]
      = Except.error "В stock_tx_iiko нет колонки document — текущая стратегия уникальности невозможна" :=
  C7_amended_theorem ["amount"] 5 [] [txDoc2] "amount" rfl rfl rfl

/-! ## Claim C6 -/

/-- Claim C6 (corrected), counterexample: `txDoc1` and `txName2` share
the claim's identity key (department, product_code, document_ref,
transaction_kind) but disagree on the descriptive field `product_name`.
The aggregator does **not** merge them into one row carrying the later
record's descriptive fields: both survive as separate rows (descriptive
fields are part of the code's aggregation key), so there is no
"later record wins" tie-break. -/
theorem C6_counterexample :
    aggregate_rows [txDoc1, txName2] true = [txDoc1, txName2]
      ∧ txDoc1.product_name ≠ txName2.product_name
      ∧ (txDoc1.department, txDoc1.product_num, txDoc1.document, txDoc1.transaction_type)
        = (txName2.department, txName2.product_num, txName2.document,
            txName2.transaction_type) := by
  refine ⟨?_, by decide, by decide⟩
  rfl

/-- Claim C6 (amended): records disagreeing on any descriptive field
never share the code's aggregation key (all non-turnover fields are part
of it), so each produces its own AggregatedRow and no tie-break exists;
the aggregated result is membership-invariant under permutation of the
input records, i.e. the output does not depend on input ordering at all
(as a set of rows). -/
theorem C6_amended_theorem (l₁ l₂ : List TxRow) (r : TxRow) (hperm : l₁.Perm l₂)
    (hr : r ∈ aggregate_rows l₁ true) : r ∈ aggregate_rows l₂ true := by
  rw [mem_aggregate_rows_iff] at hr ⊢
  obtain ⟨⟨x, hx, hxk⟩, ht⟩ := hr
  refine ⟨⟨x, hperm.mem_iff.mp hx, hxk⟩, ?_⟩
  rw [ht]
  exact List.Perm.sum_eq (List.Perm.map _ (List.Perm.filter _ hperm))

/-- Witness for C6: membership transported across a two-element swap. -/
theorem C6_witness : txDoc1 ∈ aggregate_rows [txName2, txDoc1] true :=
  C6_amended_theorem [txDoc1, txName2] [txName2, txDoc1] txDoc1
    (List.Perm.swap txName2 txDoc1 []) (by decide)

/-! ## Claim C3 -/

/-- Claim C3 (corrected), counterexample: `txDoc1` and `txDoc2` share the
claim's document-scoped identity key (department, product_code,
document_ref, transaction_kind) — operating day differs — with turnovers
10 and 5.  The claim predicts one persisted ledger row with turnover 15;
instead the code aggregates them into two rows (operating day is part of
the aggregation key), both rows land in one `execute_values` statement
with the same conflict key, and PostgreSQL aborts the run: nothing is
persisted at all. -/
theorem C3_counterexample :
    upsert_stock_tx ["document", "turnover"] 0 [] [txDoc1, txDoc2]
      = Except.error "ON CONFLICT DO UPDATE command cannot affect row a second time" := by
  rfl

/-- Claim C3 (amended): within a run, each AggregatedRow's turnover
equals the sum of turnover over all TransactionRecords sharing its full
aggregation key — which always includes operating_day and the
descriptive fields (department, oper_day, product_num, product_name,
product_type, measure_unit, document, transaction_type) — and it is
these per-full-key sums that the Upserter persists; records sharing only
the spec's coarser identity key yield separate rows (and a duplicate
conflict key aborts the statement rather than being summed). -/
theorem C3_amended_theorem (rows : List TxRow) (r : TxRow)
    (h : r ∈ aggregate_rows rows true) :
    r.turnover = keySum true (rowKey true r) rows :=
  (aggregate_rows_inv true rows).2.2.1 r h

/-- Witness for C3: records with turnovers 10 and 3 under one full
aggregation key produce the single row with turnover 13, and the amended
theorem applies to it. -/
theorem C3_witness :
    { txDoc1 with turnover := 13 } ∈ aggregate_rows [txDoc1, txDoc3] true
      ∧ ({ txDoc1 with turnover := 13 } : TxRow).turnover
        = keySum true (rowKey true { txDoc1 with turnover := 13 }) [txDoc1, txDoc3] := by
  have hmem : { txDoc1 with turnover := 13 } ∈ aggregate_rows [txDoc1, txDoc3] true := by
    simp +decide [aggregate_rows, aggInsert, rowKey, txDoc1, txDoc3]
    norm_num
  exact ⟨hmem, C3_amended_theorem [txDoc1, txDoc3] _ hmem⟩

/-! ## Claim C4 -/

/-- Witness for C4: a concrete first run (schema with `document` and
`turnover`, one record, empty ledger, time 3) followed by a second run at
time 8. -/
theorem C4_witness :
    ∃ L2, upsert_stock_tx ["document", "turnover"] 8 ledgerC4 [txDoc1]
        = Except.ok (1, L2)
      ∧ L2.map eraseTs = ledgerC4.map eraseTs :=
  upsert_stock_tx_idem ["document", "turnover"] 3 8 [] ledgerC4 [txDoc1] 1 (by rfl)

/-! ## Reconciliation claim scenarios -/

/-- An anchor fact: 12 units of product "0722" on anchor day 2024-05-01
for the batch produced on 2024-04-29. -/
def anchorA : AnchorRow :=
  ⟨"Авиагородок", "0722", some "Пирог", "2024-05-01", "2024-04-29", 12⟩

/-- The lifecycle plan row matching `anchorA` exactly (closing 9). -/
def planMatch : LifecycleRow := ⟨"Авиагородок", "0722", "2024-05-01", "2024-04-29", 9⟩

/-- A lifecycle plan row with the same department/product/snapshot day
but a production day (2024-04-30) that no anchor row carries: the claim
C1 "plan without fact" row (closing 7). -/
def planOrphan : LifecycleRow := ⟨"Авиагородок", "0722", "2024-05-01", "2024-04-30", 7⟩

/-- A stale detail row left over from an earlier run. -/
def staleDiff : DiffRow := ⟨"Старый", "999", none, "2024-01-01", "2024-01-01", 1, 2, 3⟩

/-- A stale totals row left over from an earlier run. -/
def staleTotal : TotalRow := ⟨"Старый", "999", none, "2024-01-01", 1, 2, 3⟩

/-- No injected database failures. -/
def noFail : FailPlan := ⟨false, false, false⟩

/-- The detail `INSERT` raises a database error. -/
def detailFail : FailPlan := ⟨false, true, false⟩

/-- State for the C1 counterexample: one anchor, its matching plan row
plus the orphan plan row, stale discrepancy contents. -/
def dbC1 : DBState :=
  ⟨true, true, true, true, [anchorA], [planMatch, planOrphan], [], [staleDiff], [staleTotal]⟩

/-- State for the C1 witness: one anchor and no lifecycle rows at all. -/
def dbC1w : DBState := ⟨true, true, true, true, [anchorA], [], [], [staleDiff], []⟩

/-- State for the C2 counterexample/witness: non-empty anchors and
non-empty prior discrepancy contents. -/
def dbC2 : DBState :=
  ⟨true, true, true, true, [anchorA], [planMatch], [], [staleDiff], [staleTotal]⟩

/-- State for the C5 witness: anchors empty, stale discrepancy rows. -/
def dbC5 : DBState := ⟨true, true, true, true, [], [planMatch], [], [staleDiff], [staleTotal]⟩

/-- State for the C9 witness: `batch_anchor_diff` does not exist. -/
def dbC9 : DBState := ⟨true, false, true, true, [anchorA], [planMatch], [], [staleDiff], [staleTotal]⟩

/-- The EMPTY transition of the rebuild: with the four tables present, a
working `TRUNCATE` and an empty anchor table, the run commits empty
discrepancy tables and stops. -/
theorem refresh_empty_anchors (canon : String → String) (fp : FailPlan) (s : DBState)
    (h1 : s.manual_anchor_exists = true) (h2 : s.anchor_diff_exists = true)
    (h3 : s.anchor_diff_total_exists = true) (h4 : s.daily_lifecycle_exists = true)
    (h5 : fp.truncate_fails = false) (hanch : s.anchors = []) :
    refresh_anchor_discrepancies canon fp s
      = ({ s with diff := [], total := [] }, none) := by
  simp [refresh_anchor_discrepancies, h1, h2, h3, h4, h5, hanch]

/-! ## Claim C1 -/

/-- Claim C1 (corrected), counterexample: `planOrphan` is a
LifecyclePlanRow whose (department, product_code, snapshot_day,
production_day) matches no AnchorFact row, yet the rebuilt DiffDetailRow
contains **no** row for it (no row with its production day at all, in
particular none with fact 0 and diff −7): the detail `SELECT` is a LEFT
JOIN from the anchor table, not a full outer join. -/
theorem C1_counterexample :
    (refresh_anchor_discrepancies id noFail dbC1).1.diff
      = [⟨"Авиагородок", "0722", some "Пирог", "2024-05-01", "2024-04-29", 12, 9, 3⟩]
      ∧ planOrphan ∈ dbC1.lifecycle
      ∧ ∀ r ∈ (refresh_anchor_discrepancies id noFail dbC1).1.diff,
          r.production_day ≠ planOrphan.production_day := by
  have heval : (refresh_anchor_discrepancies id noFail dbC1).1.diff
      = [⟨"Авиагородок", "0722", some "Пирог", "2024-05-01", "2024-04-29", 12, 9, 3⟩] := by
    simp +decide [refresh_anchor_discrepancies, dbC1, noFail, buildDetail, leftJoinRef,
      leftJoinLifecycle, anchorA, planMatch, planOrphan]
    norm_num
  refine ⟨heval, by decide, ?_⟩
  rw [heval]
  decide

/-- Claim C1 (amended): the rebuilt DiffDetailRow is drawn from the LEFT
join of AnchorFact with LifecyclePlanRow — every detail row stems from an
AnchorFact row, whose key fields and fact quantity it carries; an
AnchorFact row with no matching LifecyclePlanRow still appears, with plan
quantity 0 and diff_quantity equal to its fact quantity.  A
LifecyclePlanRow matching no AnchorFact row contributes no row. -/
theorem C1_amended_theorem (canon : String → String) (fp : FailPlan) (s : DBState)
    (h1 : s.manual_anchor_exists = true) (h2 : s.anchor_diff_exists = true)
    (h3 : s.anchor_diff_total_exists = true) (h4 : s.daily_lifecycle_exists = true)
    (h5 : fp.truncate_fails = false) (h6 : fp.detail_insert_fails = false) :
    (∀ r ∈ (refresh_anchor_discrepancies canon fp s).1.diff,
      ∃ a ∈ s.anchors, r.department = a.department ∧ r.product_num = a.product_num
        ∧ r.anchor_day = a.anchor_day ∧ r.production_day = a.production_day
        ∧ r.qty_fact = a.qty_fact)
    ∧ (∀ a ∈ s.anchors,
        (∀ l ∈ s.lifecycle, ¬(l.department = a.department ∧ l.product_num = a.product_num
          ∧ l.snapshot_day = a.anchor_day ∧ l.production_day = a.production_day)) →
        ∃ r ∈ (refresh_anchor_discrepancies canon fp s).1.diff,
          r.department = a.department ∧ r.product_num = a.product_num
            ∧ r.anchor_day = a.anchor_day ∧ r.production_day = a.production_day
            ∧ r.qty_fact = a.qty_fact ∧ r.qty_plan = 0 ∧ r.diff_qty = a.qty_fact) := by
  by_cases hanch : s.anchors = []
  · have hempty := refresh_empty_anchors canon fp s h1 h2 h3 h4 h5 hanch
    constructor
    · intro r hr
      rw [hempty] at hr
      simp at hr
    · intro a ha
      rw [hanch] at ha
      simp at ha
  · rw [refresh_diff_eq canon fp s h1 h2 h3 h4 h5 h6 hanch]
    exact ⟨fun r hr => mem_buildDetail canon s.prep_items_ref s.anchors s.lifecycle r hr,
      fun a ha hno => buildDetail_no_match canon s.prep_items_ref s.anchors s.lifecycle
        a ha hno⟩

/-- Witness for C1: in a state with one anchor and no lifecycle rows, the
amended theorem produces the anchor's detail row with plan 0 and diff
equal to the fact quantity. -/
theorem C1_witness :
    ∃ r ∈ (refresh_anchor_discrepancies id noFail dbC1w).1.diff,
      r.department = anchorA.department ∧ r.product_num = anchorA.product_num
        ∧ r.anchor_day = anchorA.anchor_day ∧ r.production_day = anchorA.production_day
        ∧ r.qty_fact = anchorA.qty_fact ∧ r.qty_plan = 0 ∧ r.diff_qty = anchorA.qty_fact :=
  (C1_amended_theorem id noFail dbC1w rfl rfl rfl rfl rfl rfl).2 anchorA (by decide)
    (fun l hl => by simp [dbC1w] at hl)

/-! ## Claim C2 -/

/-- Claim C2 (corrected), counterexample: with non-empty anchors and a
database error injected into the detail `INSERT`, the run raises — but
the truncation was already committed in its own earlier transaction, so
the observable state has **empty** discrepancy tables instead of the
prior contents: the rebuild is not one transaction and a partial rebuild
(truncated but not repopulated) is committed. -/
theorem C2_counterexample :
    refresh_anchor_discrepancies id detailFail dbC2
      = ({ dbC2 with diff := [], total := [] }, some "Ошибка пересчёта batch_anchor_diff")
      ∧ dbC2.diff ≠ [] := by
  refine ⟨by decide, by decide⟩

/-- Claim C2 (amended): the rebuild runs as three separately committed
transactions (truncate; detail insert; totals insert).  A database error
in the detail insert rolls back only that statement and aborts the run:
the truncate stays committed, so readers observe empty discrepancy
tables — a partially rebuilt state — rather than the pre-run contents. -/
theorem C2_amended_theorem (canon : String → String) (fp : FailPlan) (s : DBState)
    (h1 : s.manual_anchor_exists = true) (h2 : s.anchor_diff_exists = true)
    (h3 : s.anchor_diff_total_exists = true) (h4 : s.daily_lifecycle_exists = true)
    (h5 : fp.truncate_fails = false) (h6 : fp.detail_insert_fails = true)
    (h7 : s.anchors ≠ []) :
    refresh_anchor_discrepancies canon fp s
      = ({ s with diff := [], total := [] }, some "Ошибка пересчёта batch_anchor_diff") := by
  have hlen : ¬ s.anchors.length = 0 := by
    simp only [List.length_eq_zero]
    exact h7
  simp [refresh_anchor_discrepancies, h1, h2, h3, h4, h5, h6, hlen]

/-- Witness for C2: the amended theorem at the concrete failing state. -/
theorem C2_witness :
    refresh_anchor_discrepancies id detailFail dbC2
      = ({ dbC2 with diff := [], total := [] }, some "Ошибка пересчёта batch_anchor_diff") :=
  C2_amended_theorem id detailFail dbC2 rfl rfl rfl rfl rfl rfl (by decide)

/-! ## Claim C5 -/

/-- Claim C5 (confirmed): if AnchorFact holds zero rows when the rebuild
runs (tables present, truncate succeeding), then after the run both
DiffDetailRow and DiffTotalRow are empty — whatever they held before —
and the run completes without error. -/
theorem C5_empty_anchor_theorem (canon : String → String) (fp : FailPlan) (s : DBState)
    (h1 : s.manual_anchor_exists = true) (h2 : s.anchor_diff_exists = true)
    (h3 : s.anchor_diff_total_exists = true) (h4 : s.daily_lifecycle_exists = true)
    (h5 : fp.truncate_fails = false) (hanch : s.anchors = []) :
    (refresh_anchor_discrepancies canon fp s).1.diff = []
      ∧ (refresh_anchor_discrepancies canon fp s).1.total = []
      ∧ (refresh_anchor_discrepancies canon fp s).2 = none := by
  rw [refresh_empty_anchors canon fp s h1 h2 h3 h4 h5 hanch]
  exact ⟨rfl, rfl, rfl⟩

/-- Witness for C5: the empty-anchor state with stale contents. -/
theorem C5_witness :
    (refresh_anchor_discrepancies id noFail dbC5).1.diff = []
      ∧ (refresh_anchor_discrepancies id noFail dbC5).1.total = []
      ∧ (refresh_anchor_discrepancies id noFail dbC5).2 = none :=
  C5_empty_anchor_theorem id noFail dbC5 rfl rfl rfl rfl rfl rfl

/-! ## Claim C9 -/

/-- Claim C9 (confirmed): if any of the four tables
(`batch_manual_anchor`, `batch_anchor_diff`, `batch_anchor_diff_total`,
`batch_daily_lifecycle`) does not exist, the rebuild returns without any
mutation — both discrepancy tables keep their prior contents — and the
run completes successfully (no error raised). -/
theorem C9_missing_table_theorem (canon : String → String) (fp : FailPlan) (s : DBState)
    (h : s.manual_anchor_exists = false ∨ s.anchor_diff_exists = false
      ∨ s.anchor_diff_total_exists = false ∨ s.daily_lifecycle_exists = false) :
    refresh_anchor_discrepancies canon fp s = (s, none) := by
  cases h1 : s.manual_anchor_exists <;> cases h2 : s.anchor_diff_exists <;>
    cases h3 : s.anchor_diff_total_exists <;> cases h4 : s.daily_lifecycle_exists <;>
    simp_all [refresh_anchor_discrepancies]

/-- Witness for C9: `batch_anchor_diff` missing, everything (stale
contents included) untouched and no error. -/
theorem C9_witness :
    refresh_anchor_discrepancies id noFail dbC9 = (dbC9, none) :=
  C9_missing_table_theorem id noFail dbC9 (Or.inr (Or.inl rfl))
